import Mathlib

/-!
Verification of the `oeN` agent CLI (MarkusZoppelt/oeN): a shallow embedding
of its tool operations (`pkg/tools` and `main.go`), the tool dispatcher
(`executeTool`) and the conversation loop (`Agent.Run`), with theorems that
settle the specification claims.

Strings are modelled as `List Char` (`Str`), the OS file system as explicit
state records, JSON payloads as an inductive `Json` type, and Go's standard
library calls (`strings.Replace`, `os.ReadFile`, `os.WriteFile`,
`os.MkdirAll`, `os.Remove`, `os.RemoveAll`, `path.Dir`, `filepath.Walk`,
`json.Unmarshal`, `json.Marshal`) as executable Lean functions translated
from their documented behaviour.  A Go `panic` is modelled as the `none`
outcome of an `Option`: the process crashes and no further state exists.
-/

namespace OeN

/-- Strings are lists of characters (Go strings viewed as rune sequences). -/
abbrev Str := List Char

/-! ### Go `strings.Replace(s, old, new, -1)`

Translated from Go's `strings.Replace` with `n = -1`: every non-overlapping
occurrence of `old` is replaced by `new`, scanning left to right and resuming
the search after the matched region.  An empty `old` matches at the beginning
of the string and after every rune, so `new` is inserted before every
character and once after the last. -/

/-- Replacement loop for a non-empty pattern `o :: os`: at each position,
if the pattern is a prefix, emit `newL` and skip the matched region,
otherwise keep the character and continue. -/
def replCore (o : Char) (os newL : List Char) : List Char → List Char
  | [] => []
  | c :: cs =>
    if (o :: os).isPrefixOf (c :: cs) then
      newL ++ replCore o os newL (cs.drop os.length)
    else
      c :: replCore o os newL cs
termination_by l => l.length
decreasing_by
  · simp only [List.length_drop, List.length_cons]
    omega
  · simp only [List.length_cons]
    omega

/-- Go `strings.Replace(s, old, new, -1)`.  (The `old == new` early return in
Go is behaviour-identical to replacing; `EditFile` never reaches it anyway
since it rejects `old == new` first.) -/
def goReplaceAll (s old newL : Str) : Str :=
  match old with
  | [] => newL ++ s.flatMap (fun c => c :: newL)
  | o :: os => replCore o os newL s

/-- Number of non-overlapping occurrences of the non-empty pattern `o :: os`
in a string, counted greedily left to right (Go `strings.Count` for a
non-empty substring). -/
def countOcc (o : Char) (os : List Char) : List Char → Nat
  | [] => 0
  | c :: cs =>
    if (o :: os).isPrefixOf (c :: cs) then
      countOcc o os (cs.drop os.length) + 1
    else
      countOcc o os cs
termination_by l => l.length
decreasing_by
  · simp only [List.length_drop, List.length_cons]
    omega
  · simp only [List.length_cons]
    omega

/-- Prepend a character to the first part of a part list. -/
def consHead (c : Char) : List (List Char) → List (List Char)
  | [] => [[c]]
  | h :: t => (c :: h) :: t

/-- Split a string at every non-overlapping occurrence of the non-empty
pattern `o :: os` (greedy, left to right).  The parts are the maximal
pattern-free segments between occurrences; there are `countOcc + 1` of them. -/
def splitOnSub (o : Char) (os : List Char) : List Char → List (List Char)
  | [] => [[]]
  | c :: cs =>
    if (o :: os).isPrefixOf (c :: cs) then
      [] :: splitOnSub o os (cs.drop os.length)
    else
      consHead c (splitOnSub o os cs)
termination_by l => l.length
decreasing_by
  · simp only [List.length_drop, List.length_cons]
    omega
  · simp only [List.length_cons]
    omega

/-- Join a list of parts with a separator between consecutive parts. -/
def joinWith (sep : Str) : List Str → Str
  | [] => []
  | [p] => p
  | p :: ps => p ++ sep ++ joinWith sep ps

theorem joinWith_cons_cons (sep p q : Str) (ps : List Str) :
    joinWith sep (p :: q :: ps) = p ++ sep ++ joinWith sep (q :: ps) := rfl

theorem consHead_ne_nil (c : Char) (ps : List (List Char)) :
    consHead c ps ≠ [] := by
  cases ps <;> simp [consHead]

theorem splitOnSub_ne_nil (o : Char) (os s : List Char) :
    splitOnSub o os s ≠ [] := by
  induction s using splitOnSub.induct o os with
  | case1 => simp [splitOnSub]
  | case2 c cs h ih =>
    rw [splitOnSub, if_pos h]
    simp
  | case3 c cs h ih =>
    rw [splitOnSub, if_neg h]
    exact consHead_ne_nil c _

/-- Joining a part list whose head has a character consed on. -/
theorem joinWith_cons_head (sep : Str) (c : Char) (h : Str) (t : List Str) :
    joinWith sep ((c :: h) :: t) = c :: joinWith sep (h :: t) := by
  cases t with
  | nil => rfl
  | cons q ps => simp [joinWith_cons_cons]

/-- A `true` prefix test decomposes the string as pattern ++ remainder,
where the remainder is what the scan resumes on. -/
theorem prefix_decomp {o c : Char} {os cs : List Char}
    (h : (o :: os).isPrefixOf (c :: cs) = true) :
    c :: cs = (o :: os) ++ cs.drop os.length ∧
      (cs.drop os.length) = (c :: cs).drop (os.length + 1) := by
  have hp : (o :: os) <+: (c :: cs) := List.isPrefixOf_iff_prefix.mp h
  have he := List.prefix_iff_eq_append.mp hp
  constructor
  · have : (c :: cs).drop (o :: os).length = cs.drop os.length := by
      simp [List.drop]
    rw [← this]
    exact he.symm
  · simp [List.drop]

/-- Joining after a head-cons is the cons of the join. -/
theorem joinWith_consHead (sep : Str) (c : Char) (ps : List (List Char))
    (hps : ps ≠ []) : joinWith sep (consHead c ps) = c :: joinWith sep ps := by
  cases ps with
  | nil => exact absurd rfl hps
  | cons h t => rw [consHead]; exact joinWith_cons_head sep c h t

/-- The replacement is the parts of the split joined with the new string:
every non-overlapping occurrence of the pattern is replaced. -/
theorem replCore_eq_joinWith (o : Char) (os newL : List Char) (s : List Char) :
    replCore o os newL s = joinWith newL (splitOnSub o os s) := by
  induction s using splitOnSub.induct o os with
  | case1 => simp [replCore, splitOnSub, joinWith]
  | case2 c cs h ih =>
    rw [replCore, if_pos h, splitOnSub, if_pos h, ih]
    cases hs : splitOnSub o os (cs.drop os.length) with
    | nil => exact absurd hs (splitOnSub_ne_nil o os _)
    | cons a t => simp [joinWith_cons_cons, joinWith]
  | case3 c cs h ih =>
    rw [replCore, if_neg h, splitOnSub, if_neg h, ih,
      joinWith_consHead newL c _ (splitOnSub_ne_nil o os cs)]

/-- Joining the parts back with the pattern itself reconstructs the original
string: the split really is at occurrences of the pattern. -/
theorem joinWith_splitOnSub (o : Char) (os : List Char) (s : List Char) :
    joinWith (o :: os) (splitOnSub o os s) = s := by
  induction s using splitOnSub.induct o os with
  | case1 => simp [splitOnSub, joinWith]
  | case2 c cs h ih =>
    rw [splitOnSub, if_pos h]
    cases hs : splitOnSub o os (cs.drop os.length) with
    | nil => exact absurd hs (splitOnSub_ne_nil o os _)
    | cons a t =>
      rw [hs] at ih
      rw [joinWith_cons_cons, ih, (prefix_decomp h).1]
      simp
  | case3 c cs h ih =>
    rw [splitOnSub, if_neg h,
      joinWith_consHead _ c _ (splitOnSub_ne_nil o os cs), ih]

/-- The split has one more part than there are occurrences. -/
theorem length_splitOnSub (o : Char) (os : List Char) (s : List Char) :
    (splitOnSub o os s).length = countOcc o os s + 1 := by
  induction s using splitOnSub.induct o os with
  | case1 => simp [splitOnSub, countOcc]
  | case2 c cs h ih =>
    rw [splitOnSub, if_pos h, countOcc, if_pos h]
    simp [ih]
  | case3 c cs h ih =>
    rw [splitOnSub, if_neg h, countOcc, if_neg h]
    cases hs : splitOnSub o os cs with
    | nil => exact absurd hs (splitOnSub_ne_nil o os cs)
    | cons a t =>
      rw [hs] at ih
      simpa [consHead] using ih

/-- With no occurrence of the pattern, replacement is the identity. -/
theorem replCore_eq_self_of_countOcc_zero (o : Char) (os newL : List Char)
    (s : List Char) (h0 : countOcc o os s = 0) :
    replCore o os newL s = s := by
  induction s using replCore.induct o os newL with
  | case1 => simp [replCore]
  | case2 c cs h ih =>
    rw [countOcc, if_pos h] at h0
    omega
  | case3 c cs h ih =>
    rw [countOcc, if_neg h] at h0
    rw [replCore, if_neg h, ih h0]

/-- Length bookkeeping: each of the `k` occurrences swaps `|old|` characters
for `|new|` characters. -/
theorem length_replCore (o : Char) (os newL : List Char) (s : List Char) :
    (replCore o os newL s).length + countOcc o os s * (os.length + 1) =
      s.length + countOcc o os s * newL.length := by
  induction s using replCore.induct o os newL with
  | case1 => simp [replCore, countOcc]
  | case2 c cs h ih =>
    rw [replCore, if_pos h, countOcc, if_pos h]
    have hd := (prefix_decomp h).1
    have hlen : cs.length + 1 = os.length + 1 + (cs.drop os.length).length := by
      have h4 := congrArg List.length hd
      simp only [List.length_cons, List.length_append] at h4
      omega
    simp only [List.length_append, List.length_cons, Nat.succ_mul] at ih ⊢
    simp only [List.length_drop] at ih hlen
    omega
  | case3 c cs h ih =>
    rw [replCore, if_neg h, countOcc, if_neg h]
    simp only [List.length_cons]
    omega

/-- With at least one occurrence and `old ≠ new`, the replacement changes
the string.  This is what makes `EditFile`'s post-substitution no-change
check equivalent to "the search text was not present". -/
theorem replCore_ne_self (o : Char) (os newL : List Char) (s : List Char)
    (hne : (o :: os) ≠ newL) (hk : 1 ≤ countOcc o os s) :
    replCore o os newL s ≠ s := by
  by_cases hlen : newL.length = os.length + 1
  · -- equal lengths: the first replaced block differs in place
    revert hk
    induction s using replCore.induct o os newL with
    | case1 => intro hk; simp [countOcc] at hk
    | case2 c cs h ih =>
      intro hk
      rw [replCore, if_pos h]
      intro heq
      have hd := (prefix_decomp h).1
      rw [hd] at heq
      have hlen2 : newL.length = (o :: os).length := by
        simp [hlen]
      have := List.append_inj heq hlen2
      exact hne this.1.symm
    | case3 c cs h ih =>
      intro hk
      rw [replCore, if_neg h]
      intro heq
      have heq2 : replCore o os newL cs = cs := by
        simpa using heq
      rw [countOcc, if_neg h] at hk
      exact ih hk heq2
  · -- different lengths: the total length changes
    intro heq
    have hL := length_replCore o os newL s
    rw [heq] at hL
    have h2 : countOcc o os s * (os.length + 1) = countOcc o os s * newL.length := by
      omega
    have h3 := Nat.eq_of_mul_eq_mul_left (by omega : 0 < countOcc o os s) h2
    omega

/-! ### Path manipulation (Go `path.Clean`, `path.Dir`)

`createNewFile` computes the parent directory with `path.Dir`, which is
`Clean` applied to everything up to and including the final slash. -/

/-- Go `path.Clean` via its component description: drop empty and `.`
components, resolve `..` against the stack (keeping leading `..` on
relative paths, dropping it at the root of rooted ones), and return `.`
for an empty result. -/
def pathClean (p : Str) : Str :=
  if p = [] then ['.']
  else
    let rooted := p.head? = some '/'
    let comps := p.splitOn '/'
    let out := comps.foldl
      (fun out comp =>
        if comp = [] ∨ comp = ['.'] then out
        else if comp = ['.', '.'] then
          match out with
          | [] => if rooted then [] else [['.', '.']]
          | h :: t => if h = ['.', '.'] then comp :: out else t
        else comp :: out)
      []
    let s := (if rooted then ['/'] else []) ++ joinWith ['/'] out.reverse
    if s = [] then ['.'] else s

/-- Go `path.Dir`: `Clean` of the portion of the path up to and including
the final `/` (empty when there is no slash, so `Dir` of a bare file name
is `.`). -/
def pathDir (p : Str) : Str :=
  pathClean ((p.reverse.dropWhile (fun c => c ≠ '/')).reverse)

/-! ### File-system state

The OS file system as seen by the tool operations: a finite association
list of file paths to contents plus a list of existing directory paths.
OS-level failures that the claims do not touch (permissions, partial
writes) are outside the model; `os.WriteFile` and `os.MkdirAll` are
modelled as total. -/

/-- Flat file-system state: files as `path ↦ content`, plus directory
paths. -/
structure FS where
  files : List (Str × Str)
  dirs : List Str
deriving DecidableEq

/-- Structured OS error carrying the syscall name and the path, as in Go's
`*PathError`; `message` renders `err.Error()`. -/
inductive FsError where
  | notExist (op : Str) (p : Str)
  | isDir (op : Str) (p : Str)
  | notEmpty (op : Str) (p : Str)
deriving DecidableEq

/-- Rendering of `err.Error()` for a `*PathError`: `"op path: explanation"`. -/
def FsError.message : FsError → Str
  | .notExist op p => op ++ [' '] ++ p ++ ": no such file or directory".toList
  | .isDir op p => op ++ [' '] ++ p ++ ": is a directory".toList
  | .notEmpty op p => op ++ [' '] ++ p ++ ": directory not empty".toList

/-- Content of the file at `p`, when one exists. -/
def FS.lookupFile (fs : FS) (p : Str) : Option Str :=
  (fs.files.find? (fun e => e.1 == p)).map (fun e => e.2)

/-- Whether a directory exists at `p`. -/
def FS.isDirPath (fs : FS) (p : Str) : Bool :=
  fs.dirs.contains p

/-- Go `os.ReadFile`: the contents, or `*PathError` with op `open`. -/
def FS.readFile (fs : FS) (p : Str) : Except FsError Str :=
  match fs.lookupFile p with
  | some c => .ok c
  | none =>
    if fs.isDirPath p then .error (.isDir "open".toList p)
    else .error (.notExist "open".toList p)

/-- Go `os.WriteFile`: replace the content of an existing file, or append a
new file entry. -/
def FS.writeFile (fs : FS) (p content : Str) : FS :=
  { fs with
    files :=
      if fs.files.any (fun e => e.1 == p) then
        fs.files.map (fun e => if e.1 == p then (p, content) else e)
      else
        fs.files ++ [(p, content)] }

/-- The chain of ancestor paths of a slash-separated path, outermost first:
`a/b/c ↦ [a, a/b, a/b/c]`. -/
def pathPrefixesAux (pre : Str) : List Str → List Str
  | [] => []
  | c :: cs =>
    if c = [] then pathPrefixesAux pre cs
    else (pre ++ c) :: pathPrefixesAux (pre ++ c ++ ['/']) cs

/-- All ancestors of `p` including `p` itself. -/
def pathPrefixes (p : Str) : List Str :=
  pathPrefixesAux [] (p.splitOn '/')

/-- Go `os.MkdirAll`: afterwards `p` and every ancestor of `p` exist as
directories (idempotent; duplicates in the list are harmless since
existence is membership). -/
def FS.mkdirAll (fs : FS) (p : Str) : FS :=
  { fs with dirs := p :: pathPrefixes p ++ fs.dirs }

/-- Whether anything (file or directory) exists at `p`. -/
def FS.existsPath (fs : FS) (p : Str) : Bool :=
  fs.files.any (fun e => e.1 == p) || fs.dirs.contains p

/-- Whether `q` lies strictly below `p` in the tree. -/
def underPath (p q : Str) : Bool :=
  (p ++ ['/']).isPrefixOf q

/-- Whether the directory `p` has any entries below it. -/
def FS.hasChildren (fs : FS) (p : Str) : Bool :=
  fs.files.any (fun e => underPath p e.1) || fs.dirs.any (fun d => underPath p d)

/-- Go `os.RemoveAll`: delete `p` and everything below it; by its contract
it returns `nil` (no error) when `p` does not exist. -/
def FS.removeAll (fs : FS) (p : Str) : FS :=
  { files := fs.files.filter (fun e => !(e.1 == p || underPath p e.1)),
    dirs := fs.dirs.filter (fun d => !(d == p || underPath p d)) }

/-- Go `os.Remove`: removes a file or an empty directory; fails with
`ENOTEMPTY` on a non-empty directory and `ENOENT` on a missing path. -/
def osRemove (fs : FS) (p : Str) : Except FsError FS :=
  if fs.files.any (fun e => e.1 == p) then
    .ok { fs with files := fs.files.filter (fun e => !(e.1 == p)) }
  else if fs.dirs.contains p then
    if fs.hasChildren p then .error (.notEmpty "remove".toList p)
    else .ok { fs with dirs := fs.dirs.filter (fun d => !(d == p)) }
  else .error (.notExist "remove".toList p)

/-! ### Tool operations (typed level)

Each operation is translated from its Go function body, after JSON
decoding; it returns the `(output, error)` pair as `Except Str Str`
(carrying `err.Error()` messages) together with the updated file system. -/

/-- Decoded input of `edit_file`. -/
structure EditFileInput where
  path : Str
  oldStr : Str
  newStr : Str
deriving DecidableEq

/-- Decoded input of `remove_directory`. -/
structure RemoveDirectoryInput where
  path : Str
  recursive : Bool
deriving DecidableEq

/-- Decoded input of `rename_directory`. -/
structure RenameDirectoryInput where
  oldPath : Str
  newPath : Str
deriving DecidableEq

/-- Translation of `createNewFile` from `file.go`: make the parent directory chain unless
the parent is `.`, then write the file and report creation. -/
def createNewFile (fs : FS) (filePath content : Str) : Str × FS :=
  let dir := pathDir filePath
  let fs1 := if dir = ['.'] then fs else fs.mkdirAll dir
  ("Successfully created file ".toList ++ filePath, fs1.writeFile filePath content)

/-- Translation of `EditFile` from `file.go` (after decoding): reject empty path or
`old_str == new_str`; on a missing file with empty `old_str`, create it;
on a missing file otherwise, surface the `open` error; on an existing
file, replace every non-overlapping occurrence and fail with
`old_str not found in file` only when the content is unchanged and
`old_str` is non-empty — the check runs on the substitution result. -/
def editFile (inp : EditFileInput) (fs : FS) : Except Str Str × FS :=
  if inp.path = [] ∨ inp.oldStr = inp.newStr then
    (.error "invalid input parameters".toList, fs)
  else
    match fs.readFile inp.path with
    | .error e =>
      match e with
      | .notExist _ _ =>
        if inp.oldStr = [] then
          let r := createNewFile fs inp.path inp.newStr
          (.ok r.1, r.2)
        else (.error e.message, fs)
      | _ => (.error e.message, fs)
    | .ok oldContent =>
      let newContent := goReplaceAll oldContent inp.oldStr inp.newStr
      if oldContent = newContent ∧ inp.oldStr ≠ [] then
        (.error "old_str not found in file".toList, fs)
      else
        (.ok "OK".toList, fs.writeFile inp.path newContent)

/-- Body of `ReadFile` after decoding: `os.ReadFile` with the error surfaced. -/
def readFileOp (p : Str) (fs : FS) : Except Str Str × FS :=
  match fs.readFile p with
  | .ok c => (.ok c, fs)
  | .error e => (.error e.message, fs)

/-- Translation of `MakeDirectory` from `directory.go` after decoding. -/
def makeDirectory (p : Str) (fs : FS) : Except Str Str × FS :=
  if p = [] then (.error "path must not be empty".toList, fs)
  else (.ok ("Successfully created directory ".toList ++ p), fs.mkdirAll p)

/-- Translation of `RemoveDirectory` from `directory.go` after decoding: `os.RemoveAll`
when recursive (which cannot fail on a missing path), `os.Remove`
otherwise, wrapping the OS error message. -/
def removeDirectory (inp : RemoveDirectoryInput) (fs : FS) : Except Str Str × FS :=
  if inp.path = [] then (.error "path must not be empty".toList, fs)
  else if inp.recursive then
    (.ok ("Successfully removed directory ".toList ++ inp.path), fs.removeAll inp.path)
  else
    match osRemove fs inp.path with
    | .error e => (.error ("failed to remove directory: ".toList ++ e.message), fs)
    | .ok fs1 => (.ok ("Successfully removed directory ".toList ++ inp.path), fs1)

/-- Translation of `RenameDirectory` from `directory.go` after decoding: `os.Rename` moves
the tree rooted at `old_path`; a missing source fails. -/
def renameDirectory (inp : RenameDirectoryInput) (fs : FS) : Except Str Str × FS :=
  if inp.oldPath = [] ∨ inp.newPath = [] then
    (.error "old_path and new_path must not be empty".toList, fs)
  else if fs.existsPath inp.oldPath then
    let ren : Str → Str := fun q =>
      if q == inp.oldPath then inp.newPath
      else if underPath inp.oldPath q then
        inp.newPath ++ ['/'] ++ q.drop (inp.oldPath.length + 1)
      else q
    (.ok ("Successfully renamed directory from ".toList ++ inp.oldPath ++
        " to ".toList ++ inp.newPath),
      { files := fs.files.map (fun e => (ren e.1, e.2)),
        dirs := fs.dirs.map ren })
  else
    (.error ("failed to rename directory: ".toList ++
      (FsError.notExist "rename".toList inp.oldPath).message), fs)

theorem find?_map_replace (p c : Str) (l : List (Str × Str))
    (h : l.any (fun e => e.1 == p) = true) :
    (l.map (fun e => if e.1 == p then (p, c) else e)).find?
      (fun e => e.1 == p) = some (p, c) := by
  induction l with
  | nil => simp at h
  | cons e es ih =>
    by_cases he : (e.1 == p) = true
    · rw [List.map_cons, if_pos he]
      simp [List.find?_cons]
    · have he2 : (e.1 == p) = false := by simpa using he
      have hany2 : es.any (fun e => e.1 == p) = true := by
        simp only [List.any_cons, Bool.or_eq_true] at h
        exact h.resolve_left he
      rw [List.map_cons, if_neg he]
      simp only [List.find?_cons, he2]
      exact ih hany2

theorem find?_append_last (p c : Str) (l : List (Str × Str))
    (h : l.any (fun e => e.1 == p) = false) :
    ((l ++ [(p, c)]).find? (fun e => e.1 == p)) = some (p, c) := by
  induction l with
  | nil => simp
  | cons e es ih =>
    simp only [List.any_cons, Bool.or_eq_false_iff] at h
    rw [List.cons_append]
    simp only [List.find?_cons, h.1]
    exact ih h.2

/-- Writing a file makes exactly that content readable at that path. -/
theorem lookupFile_writeFile (fs : FS) (p c : Str) :
    (fs.writeFile p c).lookupFile p = some c := by
  unfold FS.writeFile FS.lookupFile
  cases hany : fs.files.any (fun e => e.1 == p) with
  | true => rw [if_pos rfl, find?_map_replace p c fs.files hany]; rfl
  | false => rw [if_neg (by simp), find?_append_last p c fs.files hany]; rfl

/-! ### Directory trees and `ListFiles`

`ListFiles` runs `filepath.Walk` over the tree rooted at the requested
path, collecting paths relative to the root (the root itself, whose
relative path is `.`, is skipped) and suffixing directory entries with the
path separator.  The tree below a path is modelled as an `FsNode`. -/

/-- A node of the directory tree: a file with content, or a directory with
named children (in traversal order). -/
inductive FsNode where
  | file (content : Str)
  | dir (children : List (Str × FsNode))

mutual

/-- The `(relative path, isDir)` pairs produced by walking a node, in
`filepath.Walk` preorder, root excluded. -/
def walkRaw : FsNode → List (Str × Bool)
  | .file _ => []
  | .dir children => walkRawChildren children

/-- Walk the children of a directory in order. -/
def walkRawChildren : List (Str × FsNode) → List (Str × Bool)
  | [] => []
  | (name, n) :: rest =>
    match n with
    | .file _ => (name, false) :: walkRawChildren rest
    | .dir cs =>
      (name, true) ::
        ((walkRawChildren cs).map (fun e => (name ++ ['/'] ++ e.1, e.2)) ++
          walkRawChildren rest)

end

/-- Render one walked entry: directories get a trailing separator
(`info.IsDir()` branch of the walk function). -/
def renderEntry (e : Str × Bool) : Str :=
  if e.2 then e.1 ++ ['/'] else e.1

/-- The entry list `ListFiles` accumulates for a walked node. -/
def walkStrings (n : FsNode) : List Str :=
  (walkRaw n).map renderEntry

/-- A legal file or directory name as produced by a real directory walk:
non-empty, not `.` or `..` (never listed by `ReadDir`), and without the
separator. -/
def validNameB (n : Str) : Bool :=
  !(n == []) && !(n == ['.']) && !(n == ['.', '.']) && !(n.contains '/')

mutual

/-- All names in the tree are legal. -/
def validNode : FsNode → Bool
  | .file _ => true
  | .dir children => validChildren children

/-- All names in a child list are legal. -/
def validChildren : List (Str × FsNode) → Bool
  | [] => true
  | (name, n) :: rest => validNameB name && validNode n && validChildren rest

end

/-- Wellformedness of a single walked entry: its relative path is
non-empty, is not `.`, and does not end in the separator. -/
def entryOk (e : Str × Bool) : Prop :=
  e.1 ≠ [] ∧ e.1 ≠ ['.'] ∧ e.1.getLast? ≠ some '/'

mutual

theorem walkRaw_ok : ∀ (n : FsNode), validNode n = true →
    ∀ e ∈ walkRaw n, entryOk e
  | .file _, _, e, he => by simp [walkRaw] at he
  | .dir cs, hv, e, he =>
    walkRawChildren_ok cs (by simpa [validNode] using hv) e
      (by simpa [walkRaw] using he)

theorem walkRawChildren_ok : ∀ (l : List (Str × FsNode)),
    validChildren l = true → ∀ e ∈ walkRawChildren l, entryOk e
  | [], _, e, he => by simp [walkRawChildren] at he
  | (name, n) :: rest, hv, e, he => by
    rw [validChildren, Bool.and_assoc, Bool.and_eq_true] at hv
    have hname := hv.1
    rw [Bool.and_eq_true] at hv
    have hvn := hv.2.1
    have hvrest := hv.2.2
    rw [validNameB] at hname
    simp only [Bool.and_eq_true, Bool.not_eq_eq_eq_not, Bool.not_true,
      beq_eq_false_iff_ne, ne_eq] at hname
    have hnm : name ≠ [] ∧ name ≠ ['.'] ∧ name ≠ ['.', '.'] ∧ '/' ∉ name := by
      refine ⟨hname.1.1.1, hname.1.1.2, hname.1.2, ?_⟩
      have h7 := hname.2
      simp only [Bool.not_eq_true] at h7
      simpa using h7
    have hlast : name.getLast? ≠ some '/' := by
      intro hl
      exact hnm.2.2.2 (List.mem_of_mem_getLast? (by simp [hl]))
    cases n with
    | file c =>
      rw [walkRawChildren] at he
      rcases List.mem_cons.mp he with h1 | h2
      · subst h1
        exact ⟨hnm.1, hnm.2.1, hlast⟩
      · exact walkRawChildren_ok rest hvrest e h2
    | dir cs =>
      rw [walkRawChildren] at he
      rcases List.mem_cons.mp he with h1 | h2
      · subst h1
        exact ⟨hnm.1, hnm.2.1, hlast⟩
      · rcases List.mem_append.mp h2 with h3 | h4
        · rcases List.mem_map.mp h3 with ⟨e0, he0, heq⟩
          have hok := walkRawChildren_ok cs (by simpa [validNode] using hvn) e0 he0
          subst heq
          refine ⟨by simp, ?_, ?_⟩
          · show name ++ ['/'] ++ e0.1 ≠ ['.']
            intro hdot
            have hsl : '/' ∈ name ++ ['/'] ++ e0.1 := by simp
            rw [hdot] at hsl
            simp at hsl
          · show (name ++ ['/'] ++ e0.1).getLast? ≠ some '/'
            rw [List.getLast?_append_of_ne_nil _ hok.1]
            exact hok.2.2
        · exact walkRawChildren_ok rest hvrest e h4

end

/-- The view of the OS directory tree used by `list_files`: which node, if
any, sits at each path (association list). -/
abbrev TreeView := List (Str × FsNode)

/-- The node at path `p`, if the path exists. -/
def lookupTree (tree : TreeView) (p : Str) : Option FsNode :=
  (tree.find? (fun e => e.1 == p)).map (fun e => e.2)

/-- Body of `ListFiles` after decoding: walk the tree at the requested path; a
missing path surfaces the walk's `lstat` error. -/
def listFilesCore (tree : TreeView) (p : Str) : Except FsError (List Str) :=
  match lookupTree tree p with
  | none => .error (.notExist "lstat".toList p)
  | some n => .ok (walkStrings n)

/-- Minimal JSON escaping of a string for `json.Marshal`. -/
def jsonQuote (s : Str) : Str :=
  ['"'] ++ s.flatMap (fun c => if c = '"' ∨ c = '\\' then ['\\', c] else [c]) ++ ['"']

/-- Go `json.Marshal` of a `[]string` built by `append`: a `nil` slice
(no entries) marshals as `null`, otherwise as a JSON array. -/
def jsonMarshalStrings (xs : List Str) : Str :=
  match xs with
  | [] => "null".toList
  | _ => ['['] ++ joinWith [','] (xs.map jsonQuote) ++ [']']

/-! ### JSON payloads and `json.Unmarshal`

The raw argument payload of a tool call (`json.RawMessage`) is modelled as
a JSON value.  Each Go tool function starts by unmarshalling its input
struct; `json.Unmarshal` into a struct accepts an object (unknown fields
ignored) or `null` (left at zero values), fails on any other value, treats
a missing or `null` field as the zero value, and fails on a type
mismatch. -/

/-- A JSON value. -/
inductive Json where
  | null
  | bool (b : Bool)
  | num (n : Int)
  | str (s : Str)
  | arr (xs : List Json)
  | obj (fields : List (Str × Json))

/-- The value of a field of a JSON object. -/
def jsonField (fields : List (Str × Json)) (key : Str) : Option Json :=
  (fields.find? (fun e => e.1 == key)).map (fun e => e.2)

/-- Decode a `string`-typed struct field. -/
def decodeStrField (fields : List (Str × Json)) (key : Str) : Except Str Str :=
  match jsonField fields key with
  | none => .ok []
  | some .null => .ok []
  | some (.str s) => .ok s
  | some _ =>
    .error ("json: cannot unmarshal value into Go struct field ".toList ++ key)

/-- Decode a `bool`-typed struct field. -/
def decodeBoolField (fields : List (Str × Json)) (key : Str) : Except Str Bool :=
  match jsonField fields key with
  | none => .ok false
  | some .null => .ok false
  | some (.bool b) => .ok b
  | some _ =>
    .error ("json: cannot unmarshal value into Go struct field ".toList ++ key)

/-- Top level of unmarshalling into a struct: an object or `null`. -/
def decodeObj (j : Json) : Except Str (List (Str × Json)) :=
  match j with
  | .null => .ok []
  | .obj fields => .ok fields
  | _ => .error "json: cannot unmarshal value into Go struct".toList

/-- Input struct `ReadFileInput`. -/
structure ReadFileInput where
  path : Str

/-- Input struct `ListFilesInput`. -/
structure ListFilesInput where
  path : Str

def decodeReadFileInput (j : Json) : Except Str ReadFileInput := do
  let fields ← decodeObj j
  let p ← decodeStrField fields "path".toList
  pure ⟨p⟩

def decodeListFilesInput (j : Json) : Except Str ListFilesInput := do
  let fields ← decodeObj j
  let p ← decodeStrField fields "path".toList
  pure ⟨p⟩

def decodeEditFileInput (j : Json) : Except Str EditFileInput := do
  let fields ← decodeObj j
  let p ← decodeStrField fields "path".toList
  let o ← decodeStrField fields "old_str".toList
  let n ← decodeStrField fields "new_str".toList
  pure ⟨p, o, n⟩

def decodeMakeDirectoryInput (j : Json) : Except Str Str := do
  let fields ← decodeObj j
  decodeStrField fields "path".toList

def decodeRemoveDirectoryInput (j : Json) : Except Str RemoveDirectoryInput := do
  let fields ← decodeObj j
  let p ← decodeStrField fields "path".toList
  let r ← decodeBoolField fields "recursive".toList
  pure ⟨p, r⟩

def decodeRenameDirectoryInput (j : Json) : Except Str RenameDirectoryInput := do
  let fields ← decodeObj j
  let o ← decodeStrField fields "old_path".toList
  let n ← decodeStrField fields "new_path".toList
  pure ⟨o, n⟩

/-! ### Tool registry and dispatcher (`main.go`)

`World` is the OS state visible to the handlers: the flat file-system view
used by the file and directory operations, plus the tree view walked by
`list_files` (two views of the same disk; `list_files` only reads).

A handler returns `none` to model a Go `panic` (the process crashes; no
result and no further state).  `ReadFile` and `ListFiles` in `main.go`
call `panic(err)` when unmarshalling fails; every other handler returns
the error, which the dispatcher folds into an `is_error` result. -/

/-- OS state threaded through the handlers. -/
structure World where
  fs : FS
  tree : TreeView

/-- A registry entry: `main.go`'s `ToolDefinition` (the `Description` and
`InputSchema` fields are only forwarded to the model API and play no role
in dispatch, so they are not modelled). -/
structure ToolDefinition where
  name : Str
  fn : Json → World → Option (Except Str Str × World)

/-- Handler `ReadFile` from `main.go`: `panic(err)` on a decode failure. -/
def readFileFn (j : Json) (w : World) : Option (Except Str Str × World) :=
  match decodeReadFileInput j with
  | .error _ => none
  | .ok inp =>
    let r := readFileOp inp.path w.fs
    some (r.1, { w with fs := r.2 })

/-- Handler `ListFiles` from `main.go`: `panic(err)` on a decode failure; defaults
to the current directory; marshals the collected entries. -/
def listFilesFn (j : Json) (w : World) : Option (Except Str Str × World) :=
  match decodeListFilesInput j with
  | .error _ => none
  | .ok inp =>
    let dir := if inp.path = [] then ['.'] else inp.path
    match listFilesCore w.tree dir with
    | .error e => some (.error e.message, w)
    | .ok entries => some (.ok (jsonMarshalStrings entries), w)

/-- Handler for `EditFile`: decode errors are returned, not panicked. -/
def editFileFn (j : Json) (w : World) : Option (Except Str Str × World) :=
  match decodeEditFileInput j with
  | .error e => some (.error e, w)
  | .ok inp =>
    let r := editFile inp w.fs
    some (r.1, { w with fs := r.2 })

/-- Handler for `MakeDirectory`. -/
def makeDirectoryFn (j : Json) (w : World) : Option (Except Str Str × World) :=
  match decodeMakeDirectoryInput j with
  | .error e => some (.error e, w)
  | .ok p =>
    let r := makeDirectory p w.fs
    some (r.1, { w with fs := r.2 })

/-- Handler for `RemoveDirectory`. -/
def removeDirectoryFn (j : Json) (w : World) : Option (Except Str Str × World) :=
  match decodeRemoveDirectoryInput j with
  | .error e => some (.error e, w)
  | .ok inp =>
    let r := removeDirectory inp w.fs
    some (r.1, { w with fs := r.2 })

/-- Handler for `RenameDirectory`. -/
def renameDirectoryFn (j : Json) (w : World) : Option (Except Str Str × World) :=
  match decodeRenameDirectoryInput j with
  | .error e => some (.error e, w)
  | .ok inp =>
    let r := renameDirectory inp w.fs
    some (r.1, { w with fs := r.2 })

/-- The registry built in `main`: the six tools, in registration order. -/
def agentTools : List ToolDefinition :=
  [⟨"read_file".toList, readFileFn⟩,
   ⟨"list_files".toList, listFilesFn⟩,
   ⟨"edit_file".toList, editFileFn⟩,
   ⟨"make_directory".toList, makeDirectoryFn⟩,
   ⟨"remove_directory".toList, removeDirectoryFn⟩,
   ⟨"rename_directory".toList, renameDirectoryFn⟩]

/-- A `tool_result` content block. -/
structure ToolResult where
  id : Str
  content : Str
  isError : Bool
deriving DecidableEq

/-- Translation of `Agent.executeTool` from `main.go`: look the name up in the registry
(first match); an unknown name yields an error result with the message
`tool not found`; otherwise run the handler and map `(output, err)` to a
result block.  `none` propagates a handler panic: the process crashes. -/
def executeTool (tools : List ToolDefinition) (id name : Str) (input : Json)
    (w : World) : Option (ToolResult × World) :=
  match tools.find? (fun t => t.name == name) with
  | none => some (⟨id, "tool not found".toList, true⟩, w)
  | some t =>
    match t.fn input w with
    | none => none
    | some (.ok out, w2) => some (⟨id, out, false⟩, w2)
    | some (.error e, w2) => some (⟨id, e, true⟩, w2)

/-! ### Conversation loop (`Agent.Run`)

One iteration of the `for` loop: optionally read a user line (appending a
user turn), call the model, append the assistant turn, scan its blocks in
order dispatching every `tool_use`, and either return to reading user
input (no tool results) or append all results as one user turn and
resubmit.  `Reachable` is the set of loop states `(conversation,
readUserInput, world)` the loop can be in between iterations. -/

/-- A content block of an assistant (model) response turn. -/
inductive RespBlock where
  | text (s : Str)
  | toolUse (id : Str) (name : Str) (input : Json)

/-- A content block of a user turn. -/
inductive UBlock where
  | text (s : Str)
  | toolResult (r : ToolResult)

/-- One conversation turn. -/
inductive Turn where
  | user (blocks : List UBlock)
  | assistant (blocks : List RespBlock)

/-- The block scan of `Agent.Run`: text blocks are printed (no state
effect), `tool_use` blocks are dispatched in emitted order, threading the
world; the results are collected in order.  `none` when a dispatch
panics. -/
def processBlocks (tools : List ToolDefinition) :
    List RespBlock → World → Option (List ToolResult × World)
  | [], w => some ([], w)
  | .text _ :: rest, w => processBlocks tools rest w
  | .toolUse id name input :: rest, w =>
    match executeTool tools id name input w with
    | none => none
    | some (r, w2) =>
      match processBlocks tools rest w2 with
      | none => none
      | some (rs, w3) => some (r :: rs, w3)

/-- One full loop iteration after the model response `resp` arrives, with
`conv` the history including any just-read user turn: append the
assistant turn, dispatch its tool uses, and either hand control back to
the user (`true`) or append all results as one user turn and resubmit
(`false`). -/
def runIteration (tools : List ToolDefinition) (conv : List Turn)
    (resp : List RespBlock) (w : World) : Option (List Turn × Bool × World) :=
  match processBlocks tools resp w with
  | none => none
  | some (results, w2) =>
    let conv1 := conv ++ [Turn.assistant resp]
    if results = [] then some (conv1, true, w2)
    else some (conv1 ++ [Turn.user (results.map UBlock.toolResult)], false, w2)

/-- Loop states reachable by `Agent.Run`: initially the history is empty
and the loop reads user input; when the flag is `true` an iteration first
appends the user's line as a user turn, when it is `false` it resubmits
directly. -/
inductive Reachable (tools : List ToolDefinition) :
    List Turn → Bool → World → Prop where
  | init (w0 : World) : Reachable tools [] true w0
  | stepUser {conv : List Turn} {w : World} (u : Str) (resp : List RespBlock)
      {conv2 : List Turn} {flag : Bool} {w2 : World} :
      Reachable tools conv true w →
      runIteration tools (conv ++ [Turn.user [UBlock.text u]]) resp w =
        some (conv2, flag, w2) →
      Reachable tools conv2 flag w2
  | stepAuto {conv : List Turn} {w : World} (resp : List RespBlock)
      {conv2 : List Turn} {flag : Bool} {w2 : World} :
      Reachable tools conv false w →
      runIteration tools conv resp w = some (conv2, flag, w2) →
      Reachable tools conv2 flag w2

/-- The ids of the `tool_use` blocks of a turn (empty for user turns). -/
def toolUseIds : Turn → List Str
  | .assistant bs =>
    bs.filterMap (fun b =>
      match b with
      | .toolUse id _ _ => some id
      | _ => none)
  | .user _ => []

/-- The ids of the `tool_result` blocks of a turn (empty for assistant
turns). -/
def toolResultIds : Turn → List Str
  | .user bs =>
    bs.filterMap (fun b =>
      match b with
      | .toolResult r => some r.id
      | _ => none)
  | .assistant _ => []

/-- The `tool_use` requests of a response, in emitted order. -/
def respToolUses (bs : List RespBlock) : List (Str × Str × Json) :=
  bs.filterMap (fun b =>
    match b with
    | .toolUse id name input => some (id, name, input)
    | _ => none)

/-- Strictly sequential dispatch of a list of tool requests, threading the
world left to right. -/
def dispatchSeq (tools : List ToolDefinition) :
    List (Str × Str × Json) → World → Option (List ToolResult × World)
  | [], w => some ([], w)
  | (id, name, input) :: rest, w =>
    match executeTool tools id name input w with
    | none => none
    | some (r, w2) =>
      match dispatchSeq tools rest w2 with
      | none => none
      | some (rs, w3) => some (r :: rs, w3)

theorem respToolUses_cons_text (s : Str) (rest : List RespBlock) :
    respToolUses (RespBlock.text s :: rest) = respToolUses rest := by
  simp [respToolUses]

theorem respToolUses_cons_use (id name : Str) (input : Json)
    (rest : List RespBlock) :
    respToolUses (RespBlock.toolUse id name input :: rest) =
      (id, name, input) :: respToolUses rest := by
  simp [respToolUses]

/-- The block scan dispatches exactly the `tool_use` blocks, in emitted
order, sequentially. -/
theorem processBlocks_eq_dispatchSeq (tools : List ToolDefinition)
    (bs : List RespBlock) (w : World) :
    processBlocks tools bs w = dispatchSeq tools (respToolUses bs) w := by
  induction bs generalizing w with
  | nil => rfl
  | cons b rest ih =>
    cases b with
    | text s =>
      rw [respToolUses_cons_text]
      simp only [processBlocks]
      exact ih w
    | toolUse id name input =>
      rw [respToolUses_cons_use]
      simp only [processBlocks, dispatchSeq]
      cases he : executeTool tools id name input w with
      | none => rfl
      | some rw2 =>
        obtain ⟨r, w2⟩ := rw2
        dsimp only
        rw [ih w2]

/-- A dispatched result carries the id of its request. -/
theorem executeTool_id (tools : List ToolDefinition) (id name : Str)
    (input : Json) (w : World) (r : ToolResult) (w2 : World)
    (h : executeTool tools id name input w = some (r, w2)) : r.id = id := by
  unfold executeTool at h
  split at h
  · cases h
    rfl
  · split at h
    · cases h
    · cases h
      rfl
    · cases h
      rfl

/-- Sequential dispatch answers every request, in order, by id. -/
theorem dispatchSeq_ids (tools : List ToolDefinition)
    (us : List (Str × Str × Json)) (w : World) (rs : List ToolResult)
    (w2 : World) (h : dispatchSeq tools us w = some (rs, w2)) :
    rs.map (fun r => r.id) = us.map (fun u => u.1) := by
  induction us generalizing w rs w2 with
  | nil =>
    cases h
    rfl
  | cons u rest ih =>
    rcases u with ⟨id, name, input⟩
    rw [dispatchSeq] at h
    split at h
    · cases h
    next r w1 he =>
      split at h
      · cases h
      next rs2 w3 he2 =>
        cases h
        simp only [List.map_cons]
        rw [executeTool_id tools id name input w r w1 he, ih _ _ _ he2]

/-! ### Claim theorems -/

/-- Unfolding of `editFile` on an existing file with legal arguments. -/
theorem editFile_exists_eq (fs : FS) (p old new C : Str)
    (hp : p ≠ []) (hne : old ≠ new) (hfile : fs.lookupFile p = some C) :
    editFile ⟨p, old, new⟩ fs =
      (if C = goReplaceAll C old new ∧ old ≠ [] then
        (.error "old_str not found in file".toList, fs)
      else (.ok "OK".toList, fs.writeFile p (goReplaceAll C old new))) := by
  unfold editFile FS.readFile
  rw [if_neg (by push_neg; exact ⟨hp, hne⟩), hfile]

/-- C1: on an existing file whose content has `k ≥ 1` non-overlapping
occurrences of a non-empty `old_str` (with `old_str ≠ new_str` and a
non-empty path), `edit_file` writes back the content with every
occurrence replaced (the written content is the `k + 1` split segments of
the original joined with `new_str`, and joining them with `old_str`
reconstructs the original) and succeeds; with `k = 0` it fails with the
`NoMatch` error `old_str not found in file`.  The error arises from the
post-substitution no-change comparison in `editFile`, which by
`replCore_ne_self` and `replCore_eq_self_of_countOcc_zero` is equivalent
to `k = 0` exactly. -/
theorem editFile_replaces_every_occurrence (fs : FS) (p new C : Str)
    (o : Char) (os : List Char) (k : Nat) (hp : p ≠ [])
    (hne : o :: os ≠ new) (hfile : fs.lookupFile p = some C)
    (hk : countOcc o os C = k) :
    (1 ≤ k →
      editFile ⟨p, o :: os, new⟩ fs =
        (.ok "OK".toList,
         fs.writeFile p (joinWith new (splitOnSub o os C))) ∧
      joinWith (o :: os) (splitOnSub o os C) = C ∧
      (splitOnSub o os C).length = k + 1) ∧
    (k = 0 →
      editFile ⟨p, o :: os, new⟩ fs =
        (.error "old_str not found in file".toList, fs)) := by
  have hrepl : goReplaceAll C (o :: os) new = replCore o os new C := rfl
  constructor
  · intro hk1
    have hchanged : replCore o os new C ≠ C :=
      replCore_ne_self o os new C hne (by omega)
    rw [editFile_exists_eq fs p (o :: os) new C hp hne hfile]
    rw [if_neg (by rw [hrepl]; intro hc; exact hchanged hc.1.symm)]
    refine ⟨?_, joinWith_splitOnSub o os C, by rw [length_splitOnSub, hk]⟩
    rw [hrepl, replCore_eq_joinWith]
  · intro hk0
    have hsame : replCore o os new C = C :=
      replCore_eq_self_of_countOcc_zero o os new C (by omega)
    rw [editFile_exists_eq fs p (o :: os) new C hp hne hfile]
    rw [if_pos ⟨by rw [hrepl, hsame], by simp⟩]

/-- Witness for C1: in a file containing `abab`, replacing the two
occurrences of `ab` by `X` writes `XX` and succeeds, while a pattern with
zero occurrences fails with the `NoMatch` message. -/
theorem editFile_replaces_every_occurrence_witness :
    "f".toList ≠ [] ∧
    ("ab".toList ≠ "X".toList) ∧
    (FS.mk [("f".toList, "abab".toList)] []).lookupFile "f".toList =
      some "abab".toList ∧
    countOcc 'a' ['b'] "abab".toList = 2 ∧
    editFile ⟨"f".toList, "ab".toList, "X".toList⟩
        (FS.mk [("f".toList, "abab".toList)] []) =
      (.ok "OK".toList,
       (FS.mk [("f".toList, "abab".toList)] []).writeFile "f".toList
         (joinWith "X".toList (splitOnSub 'a' ['b'] "abab".toList))) := by
  refine ⟨by decide, by decide, by decide, by simp [countOcc], ?_⟩
  exact ((editFile_replaces_every_occurrence
    (FS.mk [("f".toList, "abab".toList)] []) "f".toList "X".toList
    "abab".toList 'a' ['b'] 2 (by decide) (by decide) (by decide)
    (by simp [countOcc])).1 (by decide)).1

/-- C3: `edit_file` with an empty path or with `old_str = new_str`
(including both empty) fails with `invalid input parameters`
(`InvalidArguments`) for every file-system state, leaving it untouched:
the rejection is the first branch of `editFile` and precedes any
file-system access, so the result is the same whether or not the file
exists. -/
theorem editFile_rejects_invalid_arguments (fs : FS) (p old new : Str)
    (h : p = [] ∨ old = new) :
    editFile ⟨p, old, new⟩ fs =
      (.error "invalid input parameters".toList, fs) := by
  unfold editFile
  rw [if_pos h]

/-- Witness for C3: `old_str = new_str = "a"` is rejected both on a state
where the file exists and on the empty state, and an empty path is also
rejected. -/
theorem editFile_rejects_invalid_arguments_witness :
    editFile ⟨"f".toList, "a".toList, "a".toList⟩
        (FS.mk [("f".toList, "aa".toList)] []) =
      (.error "invalid input parameters".toList,
       FS.mk [("f".toList, "aa".toList)] []) ∧
    editFile ⟨"f".toList, "a".toList, "a".toList⟩ (FS.mk [] []) =
      (.error "invalid input parameters".toList, FS.mk [] []) ∧
    editFile ⟨[], "a".toList, "b".toList⟩ (FS.mk [] []) =
      (.error "invalid input parameters".toList, FS.mk [] []) :=
  ⟨editFile_rejects_invalid_arguments
      (FS.mk [("f".toList, "aa".toList)] []) "f".toList "a".toList
      "a".toList (Or.inr rfl),
   editFile_rejects_invalid_arguments (FS.mk [] []) "f".toList
      "a".toList "a".toList (Or.inr rfl),
   editFile_rejects_invalid_arguments (FS.mk [] []) [] "a".toList
      "b".toList (Or.inl rfl)⟩

/-- C2: `edit_file` with an empty `old_str` and a non-empty `new_str` on a
path where nothing exists creates the file: the parent directory chain is
created (`MkdirAll` on `path.Dir`, when the parent is not `.`), the file
afterwards reads back exactly `new_str`, and the returned message is the
creation confirmation. -/
theorem editFile_creates_missing_file (fs : FS) (p new : Str)
    (hp : p ≠ []) (hnew : new ≠ []) (hnofile : fs.lookupFile p = none)
    (hnodir : fs.isDirPath p = false) :
    editFile ⟨p, [], new⟩ fs =
      (.ok ("Successfully created file ".toList ++ p),
       ((if pathDir p = ['.'] then fs
         else fs.mkdirAll (pathDir p)).writeFile p new)) ∧
    (editFile ⟨p, [], new⟩ fs).2.lookupFile p = some new ∧
    (pathDir p ≠ ['.'] →
      (editFile ⟨p, [], new⟩ fs).2.dirs.contains (pathDir p) = true) := by
  have hread : fs.readFile p = .error (.notExist "open".toList p) := by
    unfold FS.readFile
    rw [hnofile]
    rw [if_neg (by rw [hnodir]; simp)]
  have hmain : editFile ⟨p, [], new⟩ fs =
      (.ok ("Successfully created file ".toList ++ p),
       ((if pathDir p = ['.'] then fs
         else fs.mkdirAll (pathDir p)).writeFile p new)) := by
    unfold editFile
    rw [if_neg (by push_neg; exact ⟨hp, fun h => hnew h.symm⟩), hread]
    rfl
  refine ⟨hmain, ?_, ?_⟩
  · rw [hmain]
    exact lookupFile_writeFile _ p new
  · intro hdir
    rw [hmain]
    show ((if pathDir p = ['.'] then fs
      else fs.mkdirAll (pathDir p)).writeFile p new).dirs.contains
        (pathDir p) = true
    rw [if_neg hdir]
    show ((fs.mkdirAll (pathDir p)).dirs).contains (pathDir p) = true
    unfold FS.mkdirAll
    simp

/-- Witness for C2: creating `x/a.txt` with content `hi` on an empty
file system creates parent directory `x` and the file reads back `hi`. -/
theorem editFile_creates_missing_file_witness :
    "x/a.txt".toList ≠ [] ∧ "hi".toList ≠ [] ∧
    (FS.mk [] []).lookupFile "x/a.txt".toList = none ∧
    (FS.mk [] []).isDirPath "x/a.txt".toList = false ∧
    (editFile ⟨"x/a.txt".toList, [], "hi".toList⟩
        (FS.mk [] [])).2.lookupFile "x/a.txt".toList = some "hi".toList ∧
    (editFile ⟨"x/a.txt".toList, [], "hi".toList⟩
        (FS.mk [] [])).2.dirs.contains (pathDir "x/a.txt".toList) = true := by
  have h := editFile_creates_missing_file (FS.mk [] []) "x/a.txt".toList
    "hi".toList (by decide) (by decide) (by decide) (by decide)
  exact ⟨by decide, by decide, by decide, by decide, h.2.1,
    h.2.2 (by decide)⟩

/-- C9: `edit_file` with an empty `old_str` on an *existing* file with a
non-empty `new_str` does not fail: the no-change check is guarded by
`old_str ≠ ""`, so the call succeeds with `OK` and overwrites the file
with Go's empty-pattern replacement — `new_str` inserted before every
character of the old content and once after the last character. -/
theorem editFile_empty_old_inserts_everywhere (fs : FS) (p new C : Str)
    (hp : p ≠ []) (hnew : new ≠ []) (hfile : fs.lookupFile p = some C) :
    editFile ⟨p, [], new⟩ fs =
      (.ok "OK".toList,
       fs.writeFile p (new ++ C.flatMap (fun c => c :: new))) := by
  rw [editFile_exists_eq fs p [] new C hp (fun h => hnew h.symm) hfile]
  rw [if_neg (by intro hc; exact hc.2 rfl)]
  rfl

/-- Witness for C9: an empty `old_str` against an existing file `ab`
rewrites it to `XaXbX` and reports success. -/
theorem editFile_empty_old_inserts_everywhere_witness :
    "f".toList ≠ [] ∧ "X".toList ≠ [] ∧
    (FS.mk [("f".toList, "ab".toList)] []).lookupFile "f".toList =
      some "ab".toList ∧
    editFile ⟨"f".toList, [], "X".toList⟩
        (FS.mk [("f".toList, "ab".toList)] []) =
      (.ok "OK".toList,
       (FS.mk [("f".toList, "ab".toList)] []).writeFile "f".toList
         ("X".toList ++ "ab".toList.flatMap (fun c => c :: "X".toList))) :=
  ⟨by decide, by decide, by decide,
   editFile_empty_old_inserts_everywhere
     (FS.mk [("f".toList, "ab".toList)] []) "f".toList "X".toList
     "ab".toList (by decide) (by decide) (by decide)⟩

/-- C10: `remove_directory` with `recursive = true` on a path where
nothing exists succeeds with the message `Successfully removed directory
<path>` — `os.RemoveAll` returns no error for a missing path — while the
non-recursive variant on the same missing path fails with the wrapped
`os.Remove` error. -/
theorem removeDirectory_recursive_missing_path_succeeds (fs : FS) (p : Str)
    (hp : p ≠ []) (hf : fs.files.any (fun e => e.1 == p) = false)
    (hd : fs.dirs.contains p = false) :
    (removeDirectory ⟨p, true⟩ fs).1 =
      .ok ("Successfully removed directory ".toList ++ p) ∧
    (removeDirectory ⟨p, false⟩ fs).1 =
      .error ("failed to remove directory: ".toList ++
        FsError.message (.notExist "remove".toList p)) := by
  constructor
  · unfold removeDirectory
    rw [if_neg hp]
    rfl
  · unfold removeDirectory osRemove
    rw [if_neg hp]
    show (match (if (fs.files.any fun e => e.1 == p) = true then _ else _ :
        Except FsError FS) with
      | .error e => (.error ("failed to remove directory: ".toList ++
          e.message), fs)
      | .ok fs1 => (.ok ("Successfully removed directory ".toList ++ p),
          fs1) : Except Str Str × FS).1 = _
    rw [if_neg (by rw [hf]; simp), if_neg (by rw [hd]; simp)]

/-- Witness for C10: removing the missing directory `nope` recursively
from a one-file state succeeds with the success message; non-recursively
it fails with `ENOENT`. -/
theorem removeDirectory_recursive_missing_path_succeeds_witness :
    "nope".toList ≠ [] ∧
    ((FS.mk [("f".toList, "x".toList)] []).files.any
      (fun e => e.1 == "nope".toList)) = false ∧
    ((FS.mk [("f".toList, "x".toList)] []).dirs.contains "nope".toList)
      = false ∧
    (removeDirectory ⟨"nope".toList, true⟩
        (FS.mk [("f".toList, "x".toList)] [])).1 =
      .ok ("Successfully removed directory ".toList ++ "nope".toList) ∧
    (removeDirectory ⟨"nope".toList, false⟩
        (FS.mk [("f".toList, "x".toList)] [])).1 =
      .error ("failed to remove directory: ".toList ++
        FsError.message (.notExist "remove".toList "nope".toList)) := by
  have h := removeDirectory_recursive_missing_path_succeeds
    (FS.mk [("f".toList, "x".toList)] []) "nope".toList (by decide)
    (by decide) (by decide)
  exact ⟨by decide, by decide, by decide, h.1, h.2⟩

/-- C7: listing an existing directory returns the walked entries relative
to it: the root itself (relative path `.`) never appears, every directory
entry ends with the separator and no file entry does; listing a missing
path fails with the `lstat` not-found error.  The validity hypothesis
states what a real walk guarantees: names are non-empty, are not `.` or
`..`, and contain no separator. -/
theorem listFiles_entries_shape (tree : TreeView) (d : Str) (n : FsNode)
    (hfound : lookupTree tree d = some n) (hv : validNode n = true)
    (d2 : Str) (hmissing : lookupTree tree d2 = none) :
    listFilesCore tree d = .ok (walkStrings n) ∧
    (∀ s ∈ walkStrings n, s ≠ ['.'] ∧ s ≠ []) ∧
    (∀ e ∈ walkRaw n, ((renderEntry e).getLast? = some '/') ↔ e.2 = true) ∧
    listFilesCore tree d2 = .error (.notExist "lstat".toList d2) := by
  refine ⟨?_, ?_, ?_, ?_⟩
  · unfold listFilesCore
    rw [hfound]
  · intro s hs
    rcases List.mem_map.mp hs with ⟨e, he, heq⟩
    have hok := walkRaw_ok n hv e he
    subst heq
    unfold renderEntry
    cases he2 : e.2 with
    | false =>
      rw [if_neg (by simp)]
      exact ⟨hok.2.1, hok.1⟩
    | true =>
      rw [if_pos rfl]
      constructor
      · intro hc
        have h1 : (e.1 ++ ['/']).getLast? = some '/' := List.getLast?_concat _
        rw [hc] at h1
        simp at h1
      · intro hc
        have h2 := congrArg List.length hc
        simp at h2
  · intro e he
    have hok := walkRaw_ok n hv e he
    unfold renderEntry
    cases he2 : e.2 with
    | false =>
      rw [if_neg (by simp)]
      constructor
      · intro hc
        exact absurd hc hok.2.2
      · intro hc
        exact absurd hc Bool.false_ne_true
    | true =>
      rw [if_pos rfl]
      simp [List.getLast?_concat]
  · unfold listFilesCore
    rw [hmissing]

/-- A small sample directory: a file `a.txt` and a subdirectory `sub`
containing an empty file `b.txt`. -/
def sampleNode : FsNode :=
  FsNode.dir
    [("a.txt".toList, FsNode.file "hi".toList),
     ("sub".toList, FsNode.dir [("b.txt".toList, FsNode.file [])])]

/-- A one-mount tree view exposing `sampleNode` at `.`. -/
def sampleTree : TreeView := [(['.'], sampleNode)]

/-- Witness for C7: the sample directory lists as `a.txt`, `sub/`,
`sub/b.txt` (directory entry suffixed, file entries not, root absent),
and listing the missing path `nope` fails with the `lstat` error. -/
theorem listFiles_entries_shape_witness :
    lookupTree sampleTree ['.'] = some sampleNode ∧
    validNode sampleNode = true ∧
    listFilesCore sampleTree ['.'] = .ok (walkStrings sampleNode) ∧
    walkStrings sampleNode =
      ["a.txt".toList, "sub/".toList, "sub/b.txt".toList] ∧
    listFilesCore sampleTree "nope".toList =
      .error (.notExist "lstat".toList "nope".toList) := by
  have h := listFiles_entries_shape sampleTree ['.'] sampleNode rfl
    (by simp [sampleNode, validNode, validChildren, validNameB])
    "nope".toList rfl
  refine ⟨rfl, ?_, h.1, ?_, h.2.2.2⟩
  · simp [sampleNode, validNode, validChildren, validNameB]
  · simp [walkStrings, sampleNode, walkRaw, walkRawChildren, renderEntry]

/-- C8: dispatching a name absent from the registry yields a result block
with `is_error = true` and the exact message `tool not found`, leaving
the world untouched; the dispatcher returns normally (`some`, never the
`none` that models a crash), so the loop goes on. -/
theorem executeTool_unknown_tool (tools : List ToolDefinition)
    (id name : Str) (input : Json) (w : World)
    (habsent : ∀ t ∈ tools, t.name ≠ name) :
    executeTool tools id name input w =
      some (⟨id, "tool not found".toList, true⟩, w) := by
  unfold executeTool
  have hfind : tools.find? (fun t => t.name == name) = none := by
    rw [List.find?_eq_none]
    intro t ht
    simpa using habsent t ht
  rw [hfind]

/-- Witness for C8: the name `frobnicate` is not registered; dispatching
it returns the `tool not found` error result and the same world. -/
theorem executeTool_unknown_tool_witness :
    (∀ t ∈ agentTools, t.name ≠ "frobnicate".toList) ∧
    executeTool agentTools "t9".toList "frobnicate".toList Json.null
        ⟨FS.mk [] [], []⟩ =
      some (⟨"t9".toList, "tool not found".toList, true⟩,
        ⟨FS.mk [] [], []⟩) := by
  refine ⟨?_, ?_⟩
  · intro t ht
    simp only [agentTools, List.mem_cons, List.not_mem_nil, or_false] at ht
    rcases ht with h | h | h | h | h | h <;> rw [h] <;> decide
  · exact executeTool_unknown_tool agentTools "t9".toList
      "frobnicate".toList Json.null ⟨FS.mk [] [], []⟩
      (by
        intro t ht
        simp only [agentTools, List.mem_cons, List.not_mem_nil,
          or_false] at ht
        rcases ht with h | h | h | h | h | h <;> rw [h] <;> decide)

/-- C4 (code bug): the spec requires every argument-decode failure to be
surfaced as an `is_error = true` result and never to crash the process,
but `ReadFile` and `ListFiles` in `main.go` call `panic(err)` on an
unmarshal error.  At the concrete failing input — a `read_file` call
whose raw payload is the JSON value `true`, which cannot unmarshal into
the input struct — the dispatch panics (`none`); the same payload sent to
`edit_file` shows the intended convention, an `is_error = true` result
carrying the decode error message. -/
theorem readFile_decode_failure_panics :
    executeTool agentTools "id1".toList "read_file".toList (Json.bool true)
        ⟨FS.mk [] [], []⟩ = none ∧
    executeTool agentTools "id1".toList "list_files".toList
        (Json.bool true) ⟨FS.mk [] [], []⟩ = none ∧
    executeTool agentTools "id1".toList "edit_file".toList (Json.bool true)
        ⟨FS.mk [] [], []⟩ =
      some (⟨"id1".toList,
        "json: cannot unmarshal value into Go struct".toList, true⟩,
        ⟨FS.mk [] [], []⟩) :=
  ⟨rfl, rfl, rfl⟩

/-- C5: for any model response turn, `runIteration` dispatches exactly the
`tool_use` blocks, in the order the model emitted them, strictly
sequentially (the world threads left to right through `dispatchSeq`):
with no `tool_use` block the loop appends only the assistant turn and
returns to awaiting user input (`true`); with at least one it collects
all results — one per request, ids in emitted order — into a single new
user turn appended after the assistant turn and resubmits without reading
user input (`false`). -/
theorem runIteration_dispatch_and_resubmit (tools : List ToolDefinition)
    (conv : List Turn) (resp : List RespBlock) (w : World)
    (rs : List ToolResult) (w2 : World)
    (hdisp : dispatchSeq tools (respToolUses resp) w = some (rs, w2)) :
    (respToolUses resp = [] →
      runIteration tools conv resp w =
        some (conv ++ [Turn.assistant resp], true, w2)) ∧
    (respToolUses resp ≠ [] →
      rs ≠ [] ∧
      rs.map (fun r => r.id) = (respToolUses resp).map (fun u => u.1) ∧
      runIteration tools conv resp w =
        some (conv ++ [Turn.assistant resp,
          Turn.user (rs.map UBlock.toolResult)], false, w2)) := by
  have hpb : processBlocks tools resp w = some (rs, w2) := by
    rw [processBlocks_eq_dispatchSeq]
    exact hdisp
  have hids := dispatchSeq_ids tools (respToolUses resp) w rs w2 hdisp
  constructor
  · intro hu
    have hrs : rs = [] := by
      rw [hu] at hids
      simpa using List.map_eq_nil_iff.mp hids
    subst hrs
    unfold runIteration
    rw [hpb]
    dsimp only
    rw [if_pos rfl]
  · intro hu
    have hrs : rs ≠ [] := by
      intro h0
      rw [h0] at hids
      exact hu (List.map_eq_nil_iff.mp hids.symm)
    refine ⟨hrs, hids, ?_⟩
    unfold runIteration
    rw [hpb]
    dsimp only
    rw [if_neg hrs, List.append_assoc]
    rfl

/-- The response the loop-claim witnesses use: one text block followed by
`make_directory("x")` and `edit_file("x/a.txt", "", "hi")`, the
create-then-edit chain from the specification's example. -/
def c5resp : List RespBlock :=
  [RespBlock.text "making it".toList,
   RespBlock.toolUse "t1".toList "make_directory".toList
     (Json.obj [("path".toList, Json.str "x".toList)]),
   RespBlock.toolUse "t2".toList "edit_file".toList
     (Json.obj [("path".toList, Json.str "x/a.txt".toList),
       ("old_str".toList, Json.str []),
       ("new_str".toList, Json.str "hi".toList)])]

/-- The empty starting world of the loop-claim witnesses. -/
def c5w0 : World := ⟨⟨[], []⟩, []⟩

/-- The two results the sample response produces, in emitted order. -/
def c5rs : List ToolResult :=
  [⟨"t1".toList, "Successfully created directory x".toList, false⟩,
   ⟨"t2".toList, "Successfully created file x/a.txt".toList, false⟩]

/-- The world after both sample calls ran: the file exists with content
`hi` and the directory `x` was created (once by each call). -/
def c5w2 : World :=
  ⟨⟨[("x/a.txt".toList, "hi".toList)],
    ["x".toList, "x".toList, "x".toList, "x".toList]⟩, []⟩

/-- Witness for C5: the sample response has tool uses, and one iteration
on the empty history appends the assistant turn plus one user turn with
both results in order and resubmits (`false`). -/
theorem runIteration_dispatch_and_resubmit_witness :
    respToolUses c5resp ≠ [] ∧
    runIteration agentTools [] c5resp c5w0 =
      some ([Turn.assistant c5resp,
        Turn.user (c5rs.map UBlock.toolResult)], false, c5w2) := by
  have h := runIteration_dispatch_and_resubmit agentTools [] c5resp c5w0
    c5rs c5w2 rfl
  refine ⟨(fun hc => nomatch hc), ?_⟩
  have h2 := (h.2 (fun hc => nomatch hc)).2.2
  simpa using h2

/-- The loop-history invariant of C6: whenever turn `n` carries `tool_use`
blocks, turn `n + 1` exists and its `tool_result` ids are exactly the
`tool_use` ids of turn `n`, in order (so a turn with two tool uses is
followed by a turn with exactly two matching results). -/
def convInvariant (conv : List Turn) : Prop :=
  ∀ (n : Nat) (hn : n < conv.length), toolUseIds conv[n] ≠ [] →
    ∃ hm : n + 1 < conv.length, toolResultIds conv[n + 1] = toolUseIds conv[n]

theorem convInvariant_nil : convInvariant [] := by
  intro n hn
  simp at hn

theorem toolUseIds_eq_map (resp : List RespBlock) :
    toolUseIds (Turn.assistant resp) =
      (respToolUses resp).map (fun u => u.1) := by
  induction resp with
  | nil => rfl
  | cons b rest ih =>
    cases b with
    | text s =>
      simp only [toolUseIds, respToolUses, List.filterMap_cons] at ih ⊢
      exact ih
    | toolUse id name input =>
      simp only [toolUseIds, respToolUses, List.filterMap_cons,
        List.map_cons] at ih ⊢
      rw [ih]

theorem toolResultIds_map (rs : List ToolResult) :
    toolResultIds (Turn.user (rs.map UBlock.toolResult)) =
      rs.map (fun r => r.id) := by
  induction rs with
  | nil => rfl
  | cons r rest ih =>
    simp only [toolResultIds, List.map_cons, List.filterMap_cons] at ih ⊢
    rw [ih]

/-- Appending a user turn preserves the invariant (user turns carry no
`tool_use` blocks). -/
theorem convInvariant_append_user (xs : List Turn) (bs : List UBlock)
    (h : convInvariant xs) : convInvariant (xs ++ [Turn.user bs]) := by
  intro n hn huse
  rw [List.length_append] at hn
  by_cases hcase : n < xs.length
  · have hx : (xs ++ [Turn.user bs])[n] = xs[n] :=
      List.getElem_append_left hcase
    rw [hx] at huse
    obtain ⟨hm, heq⟩ := h n hcase huse
    have hb : n + 1 < (xs ++ [Turn.user bs]).length := by
      simp
      omega
    refine ⟨hb, ?_⟩
    have h1 : (xs ++ [Turn.user bs])[n + 1] = xs[n + 1] :=
      List.getElem_append_left hm
    rw [h1, hx, heq]
  · have hn2 : n = xs.length := by
      simp at hn
      omega
    subst hn2
    have hx : (xs ++ [Turn.user bs])[xs.length] = Turn.user bs := by
      rw [List.getElem_append_right (le_refl _)]
      simp
    rw [hx] at huse
    exact absurd rfl huse

/-- Appending an assistant turn without `tool_use` blocks preserves the
invariant. -/
theorem convInvariant_append_assistant_no_uses (xs : List Turn)
    (resp : List RespBlock) (h : convInvariant xs)
    (hnouse : toolUseIds (Turn.assistant resp) = []) :
    convInvariant (xs ++ [Turn.assistant resp]) := by
  intro n hn huse
  rw [List.length_append] at hn
  by_cases hcase : n < xs.length
  · have hx : (xs ++ [Turn.assistant resp])[n] = xs[n] :=
      List.getElem_append_left hcase
    rw [hx] at huse
    obtain ⟨hm, heq⟩ := h n hcase huse
    have hb : n + 1 < (xs ++ [Turn.assistant resp]).length := by
      simp
      omega
    refine ⟨hb, ?_⟩
    have h1 : (xs ++ [Turn.assistant resp])[n + 1] = xs[n + 1] :=
      List.getElem_append_left hm
    rw [h1, hx, heq]
  · have hn2 : n = xs.length := by
      simp at hn
      omega
    subst hn2
    have hx : (xs ++ [Turn.assistant resp])[xs.length] =
        Turn.assistant resp := by
      rw [List.getElem_append_right (le_refl _)]
      simp
    rw [hx] at huse
    exact absurd hnouse huse

/-- Appending an assistant turn immediately followed by the user turn
carrying its matching results preserves the invariant. -/
theorem convInvariant_append_assistant_results (xs : List Turn)
    (resp : List RespBlock) (rs : List ToolResult) (h : convInvariant xs)
    (hmatch : toolResultIds (Turn.user (rs.map UBlock.toolResult)) =
      toolUseIds (Turn.assistant resp)) :
    convInvariant (xs ++ [Turn.assistant resp,
      Turn.user (rs.map UBlock.toolResult)]) := by
  intro n hn huse
  rw [List.length_append] at hn
  by_cases hcase : n < xs.length
  · have hx : (xs ++ [Turn.assistant resp,
        Turn.user (rs.map UBlock.toolResult)])[n] = xs[n] :=
      List.getElem_append_left hcase
    rw [hx] at huse
    obtain ⟨hm, heq⟩ := h n hcase huse
    have hb : n + 1 < (xs ++ [Turn.assistant resp,
        Turn.user (rs.map UBlock.toolResult)]).length := by
      simp
      omega
    refine ⟨hb, ?_⟩
    have h1 : (xs ++ [Turn.assistant resp,
        Turn.user (rs.map UBlock.toolResult)])[n + 1] = xs[n + 1] :=
      List.getElem_append_left hm
    rw [h1, hx, heq]
  · by_cases hcase2 : n = xs.length
    · subst hcase2
      have hx : (xs ++ [Turn.assistant resp,
          Turn.user (rs.map UBlock.toolResult)])[xs.length] =
          Turn.assistant resp := by
        rw [List.getElem_append_right (le_refl _)]
        simp
      have hb : xs.length + 1 < (xs ++ [Turn.assistant resp,
          Turn.user (rs.map UBlock.toolResult)]).length := by
        simp
      refine ⟨hb, ?_⟩
      have h1 : (xs ++ [Turn.assistant resp,
          Turn.user (rs.map UBlock.toolResult)])[xs.length + 1] =
          Turn.user (rs.map UBlock.toolResult) := by
        rw [List.getElem_append_right (by omega)]
        simp
      rw [h1, hx, hmatch]
    · have hn2 : n = xs.length + 1 := by
        simp at hn
        omega
      subst hn2
      have hx : (xs ++ [Turn.assistant resp,
          Turn.user (rs.map UBlock.toolResult)])[xs.length + 1] =
          Turn.user (rs.map UBlock.toolResult) := by
        rw [List.getElem_append_right (by omega)]
        simp
      rw [hx] at huse
      exact absurd rfl huse

/-- One loop iteration preserves the history invariant. -/
theorem convInvariant_runIteration (tools : List ToolDefinition)
    (base : List Turn) (resp : List RespBlock) (w : World)
    (conv2 : List Turn) (flag : Bool) (w2 : World)
    (hbase : convInvariant base)
    (hstep : runIteration tools base resp w = some (conv2, flag, w2)) :
    convInvariant conv2 := by
  unfold runIteration at hstep
  cases hpb : processBlocks tools resp w with
  | none =>
    rw [hpb] at hstep
    cases hstep
  | some rsw =>
    obtain ⟨rs, w3⟩ := rsw
    rw [hpb] at hstep
    dsimp only at hstep
    have hd : dispatchSeq tools (respToolUses resp) w = some (rs, w3) := by
      rw [← processBlocks_eq_dispatchSeq]
      exact hpb
    have hids := dispatchSeq_ids tools (respToolUses resp) w rs w3 hd
    by_cases hrs : rs = []
    · rw [if_pos hrs] at hstep
      cases hstep
      apply convInvariant_append_assistant_no_uses base resp hbase
      rw [toolUseIds_eq_map, ← hids, hrs]
      rfl
    · rw [if_neg hrs] at hstep
      cases hstep
      have hre : (base ++ [Turn.assistant resp]) ++
          [Turn.user (rs.map UBlock.toolResult)] =
          base ++ [Turn.assistant resp,
            Turn.user (rs.map UBlock.toolResult)] := by
        simp
      rw [hre]
      apply convInvariant_append_assistant_results base resp rs hbase
      rw [toolResultIds_map, toolUseIds_eq_map, hids]

/-- C6: in every reachable loop state, the conversation satisfies the
invariant: each assistant turn carrying `tool_use` blocks is immediately
followed by a user turn whose `tool_result` ids equal its `tool_use` ids
in order — no dangling tool call, and two uses get exactly two matching
results.  The iteration is atomic (the results turn is appended in the
same step, before any further user input is read), so every state the
loop can reach between iterations satisfies it. -/
theorem reachable_tool_use_matched (tools : List ToolDefinition)
    (conv : List Turn) (flag : Bool) (w : World)
    (hr : Reachable tools conv flag w) : convInvariant conv := by
  induction hr with
  | init w0 => exact convInvariant_nil
  | stepUser u resp hprev hstep ih =>
    exact convInvariant_runIteration tools _ resp _ _ _ _
      (convInvariant_append_user _ [UBlock.text u] ih) hstep
  | stepAuto resp hprev hstep ih =>
    exact convInvariant_runIteration tools _ resp _ _ _ _ ih hstep

/-- Witness for C6: after one user line and the sample two-tool response,
the reached three-turn history satisfies the invariant — the assistant
turn's two `tool_use` ids `t1`, `t2` are matched in the next turn. -/
theorem reachable_tool_use_matched_witness :
    convInvariant
      [Turn.user [UBlock.text "please".toList],
       Turn.assistant c5resp,
       Turn.user (c5rs.map UBlock.toolResult)] :=
  reachable_tool_use_matched agentTools
    [Turn.user [UBlock.text "please".toList],
     Turn.assistant c5resp,
     Turn.user (c5rs.map UBlock.toolResult)] false c5w2
    (Reachable.stepUser "please".toList c5resp (Reachable.init c5w0) rfl)

end OeN
